import Mathlib

/-!
Verification of the session orchestration core of the `motoko` repository
(`major` subproject): transcript reading/consolidation (`sessions.py`),
session metadata registry (`sessions.py`), and the orchestrator
(`server.py`: message queueing, single-flight worker, SSE event stream,
identifier reconciliation).

Python code is shallowly embedded: JSONL transcript lines become an
`Option Entry` (with `none` standing for a blank or unparseable line),
JSON dict lookups with defaults become `Option` fields read with `getD`,
and `str.join` becomes the recursive `joinSep`.
-/

namespace Motoko

/-- Models Python's `sep.join(parts)`: empty for `[]`, the sole element for a
singleton, and elements interleaved with `sep` otherwise. -/
def joinSep (sep : String) : List String → String
  | [] => ""
  | [a] => a
  | a :: b :: rest => a ++ sep ++ joinSep sep (b :: rest)

/-- A logical message extracted from the SDK JSONL transcript
(`SessionMessage` in `sessions.py`; the `created_at` field is never set on
this code path and is omitted). -/
structure SessionMessage where
  role : String
  content : String
  tool_name : Option String := none
  deriving Repr, DecidableEq

/-- One content block of a transcript entry. An `obj` is a JSON dict carrying
the keys the reader inspects: `type`, `text`, `name`, `input` (kept as its
`json.dumps` serialization, `none` when the key is absent — the reader then
serializes the default `{}`), and `content` for tool results (a flat string or
a list of item strings, each item already rendered the way the reader renders
it: a dict's `text` value, else `str(...)` of the item). A `str` is a bare
string block (possible in user entries). -/
inductive Block where
  | obj (btype : Option String) (text : Option String) (name : Option String)
      (input : Option String) (rcontent : Option (String ⊕ List String))
  | str (s : String)
  deriving Repr, DecidableEq

/-- The `message.content` payload of an entry: a flat string or a list of
blocks (`message.get('content', [])` defaults to the empty block list). -/
inductive ContentVal where
  | str (s : String)
  | blocks (bs : List Block)
  deriving Repr, DecidableEq

/-- A parsed JSONL transcript entry: its `type` discriminator, its `isMeta`
flag (truthiness of `entry.get('isMeta')`), and its content payload. -/
structure Entry where
  etype : Option String
  isMeta : Bool
  content : ContentVal
  deriving Repr, DecidableEq

/-- Truthiness of Python's `s.strip()`: true when some non-whitespace
character remains after stripping. -/
def stripTruthy (s : String) : Bool :=
  s.data.any (fun c => !c.isWhitespace)

/-- Text contributed by one block of a user/human entry: the `text` of a
text-typed dict block (defaulting to `""`), or a bare string block. -/
def userTextOfBlock : Block → Option String
  | .obj btype text _ _ _ => if btype = some "text" then some (text.getD "") else none
  | .str s => some s

/-- Rendering of a tool-result block's `content` before truncation:
the default `""` when absent, the string itself, or the newline-join of the
item strings of a list. -/
def toolResultText : Option (String ⊕ List String) → String
  | none => ""
  | some (Sum.inl s) => s
  | some (Sum.inr items) => joinSep "\n" items

/-- One step of the assistant-entry block scan: text blocks accumulate into
the pending text parts, tool-use and tool-result blocks immediately append a
standalone message (tool-result content truncated to 1000 characters). -/
def assistantStep (acc : List String × List SessionMessage) (b : Block) :
    List String × List SessionMessage :=
  match b with
  | .str _ => acc
  | .obj btype _text name input rcontent =>
    if btype = some "text" then (acc.1 ++ [_text.getD ""], acc.2)
    else if btype = some "tool_use" then
      (acc.1, acc.2 ++ [⟨"tool_use", input.getD "\x7b\x7d", name⟩])
    else if btype = some "tool_result" then
      (acc.1, acc.2 ++ [⟨"tool_result", (toolResultText rcontent).take 1000, none⟩])
    else acc

/-- Messages contributed by a single transcript entry, mirroring the per-line
branch of `SessionManager.get_history`: meta entries yield nothing; a
user/human entry yields one user message when it has text; an assistant entry
yields its tool-use/tool-result messages in block order followed by one
assistant message when any text block was seen. -/
def parseEntry (e : Entry) : List SessionMessage :=
  if e.isMeta then [] else
  match e.etype with
  | some t =>
    if t = "human" ∨ t = "user" then
      match e.content with
      | .str s => if stripTruthy s then [⟨"user", s, none⟩] else []
      | .blocks bs =>
        let ts := bs.filterMap userTextOfBlock
        if ts.isEmpty then [] else [⟨"user", joinSep "\n" ts, none⟩]
    else if t = "assistant" then
      match e.content with
      | .str _ => []
      | .blocks bs =>
        let acc := bs.foldl assistantStep ([], [])
        acc.2 ++ (if acc.1.isEmpty then [] else [⟨"assistant", joinSep "\n" acc.1, none⟩])
    else []
  | none => []

/-- Concatenated messages of all entries, in transcript order. -/
def parseEntries (es : List Entry) : List SessionMessage :=
  (es.map parseEntry).flatten

/-- Flush of the buffered assistant texts: nothing when none are buffered,
otherwise a single assistant message joining them with a blank line. -/
def flushPending (pending : List String) : List SessionMessage :=
  if pending.isEmpty then [] else [⟨"assistant", joinSep "\n\n" pending, none⟩]

/-- The consolidation loop of `get_history`: a user message first flushes the
buffered assistant texts, an assistant message only buffers its content, and
any other message is passed through unchanged; a final flush follows the last
input message. -/
def consolidateAux : List SessionMessage → List String → List SessionMessage
  | [], pending => flushPending pending
  | m :: rest, pending =>
    if m.role = "user" then
      flushPending pending ++ m :: consolidateAux rest []
    else if m.role = "assistant" then
      consolidateAux rest (pending ++ [m.content])
    else
      m :: consolidateAux rest pending

/-- Consolidation pass over the parsed messages (empty initial buffer). -/
def consolidate (msgs : List SessionMessage) : List SessionMessage :=
  consolidateAux msgs []

/-- History derived from the parseable entries of a transcript's lines:
blank/malformed lines (`none`) are skipped, the rest are parsed and the
result consolidated. -/
def historyOfLines (lines : List (Option Entry)) : List SessionMessage :=
  consolidate (parseEntries (lines.filterMap id))

/-! Filesystem model for transcript files and symlink aliases. A symlink
target is recorded as the absolute path it resolves to (the code creates the
link with a relative name inside the link's own directory, which resolves to
exactly that absolute path). -/

/-- A filesystem node: a JSONL transcript file (its lines) or a symlink. -/
inductive FsNode where
  | file (lines : List (Option Entry))
  | link (target : String)
  deriving Repr, DecidableEq

/-- A filesystem: an association of absolute paths to nodes. -/
abbrev Fs := List (String × FsNode)

/-- Node stored at a path, if any. -/
def fsLookup (fs : Fs) (p : String) : Option FsNode :=
  (fs.find? (fun e => e.1 == p)).map (·.2)

/-- Contents obtained by opening a path, following one symlink hop (the code
only ever creates one-level links). `none` when the path is missing or
dangling. -/
def readFile (fs : Fs) (p : String) : Option (List (Option Entry)) :=
  match fsLookup fs p with
  | some (.file lines) => some lines
  | some (.link t) =>
      match fsLookup fs t with
      | some (.file lines) => some lines
      | _ => none
  | none => none

/-- Models `Path.exists`, which follows symlinks. -/
def pathExists (fs : Fs) (p : String) : Bool :=
  (readFile fs p).isSome

/-- Per-character step of `workspace_path.replace('/', '-').replace('_', '-')`. -/
def encodeChar (c : Char) : Char :=
  if c = '/' then '-' else if c = '_' then '-' else c

/-- Encoding of a workspace path into the SDK projects directory name
(`workspace_path.replace('/', '-').replace('_', '-')`, applied per
character). -/
def encodeWorkspacePath (workspace : String) : String :=
  ⟨workspace.data.map encodeChar⟩

/-- SDK sessions directory read by `SessionManager._get_sdk_sessions_dir`:
`\x7bhome\x7d/.claude/projects/\x7bencoded workspace\x7d`. -/
def sdkSessionsDir (home workspace : String) : String :=
  home ++ "/.claude/projects/" ++ encodeWorkspacePath workspace

/-- Sessions directory used by `server._process_session_messages` for the
resume check and the reconciliation symlink:
`\x7bworkspace\x7d/.chelle/sessions`. -/
def chelleSessionsDir (workspace : String) : String :=
  workspace ++ "/.chelle/sessions"

/-- Path of the transcript `get_history` opens for a session identifier. -/
def transcriptPath (home workspace sid : String) : String :=
  sdkSessionsDir home workspace ++ "/" ++ sid ++ ".jsonl"

/-- Embeds `SessionManager.get_history`: open the transcript in the SDK
sessions directory; a missing file yields the empty history, otherwise the
lines are parsed (skipping malformed ones) and consolidated. -/
def get_history (fs : Fs) (home workspace sid : String) : List SessionMessage :=
  match readFile fs (transcriptPath home workspace sid) with
  | none => []
  | some lines => historyOfLines lines

/-- Embeds the identifier-reconciliation branch of the `ResultMessage` case
in `server._process_session_messages`: when the engine's canonical identifier
differs from the client-visible one, and `\x7bcanonical\x7d.jsonl` exists in
the `.chelle/sessions` directory while `\x7bclient\x7d.jsonl` does not, a
symlink from the client file to the canonical file is created there. -/
def reconcileAlias (fs : Fs) (workspace sessionId actualSdkId : String) : Fs :=
  if actualSdkId ≠ sessionId then
    let sdkFile := chelleSessionsDir workspace ++ "/" ++ actualSdkId ++ ".jsonl"
    let ourFile := chelleSessionsDir workspace ++ "/" ++ sessionId ++ ".jsonl"
    if pathExists fs sdkFile && !(pathExists fs ourFile) then
      (ourFile, .link sdkFile) :: fs
    else fs
  else fs

/-! Session registry (`SessionManager` metadata CRUD over `sessions.json`).
The JSON dict stored per session holds only the keys that have been written;
each is an `Option` field. `datetime.utcnow().isoformat()` is passed in as
the `now` argument. -/

/-- A stored per-session metadata dict (only written keys are present). -/
structure StoredMeta where
  title : Option String := none
  archived : Option Bool := none
  project_id : Option String := none
  entity_type : Option String := none
  entity_id : Option String := none
  created_at : Option String := none
  updated_at : Option String := none
  workspace_path : Option String := none
  deriving Repr, DecidableEq

/-- The `sessions.json` contents: session identifier to stored dict. -/
abbrev MetaStore := List (String × StoredMeta)

/-- Dict lookup `metadata.get(session_id)`. -/
def storeLookup (store : MetaStore) (sid : String) : Option StoredMeta :=
  (store.find? (fun e => e.1 == sid)).map (·.2)

/-- Dict assignment `metadata[session_id] = m`: replace in place or append. -/
def storeInsert (store : MetaStore) (sid : String) (m : StoredMeta) : MetaStore :=
  if (store.find? (fun e => e.1 == sid)).isSome then
    store.map (fun e => if e.1 == sid then (sid, m) else e)
  else store ++ [(sid, m)]

/-- The metadata record returned to callers (`SessionMetadata` dataclass). -/
structure SessionMetadata where
  session_id : String
  workspace_path : String
  title : Option String := none
  archived : Bool := false
  project_id : Option String := none
  entity_type : Option String := none
  entity_id : Option String := none
  created_at : String
  updated_at : String
  deriving Repr, DecidableEq

/-- Embeds `SessionManager.get_session`: absent when there is neither a
stored dict nor a transcript file for the identifier; otherwise a record
built from the stored fields with documented defaults (`now` standing for the
`datetime.utcnow().isoformat()` fallbacks). -/
def get_session (store : MetaStore) (jsonlExists : Bool) (now workspace sid : String) :
    Option SessionMetadata :=
  match storeLookup store sid with
  | none =>
      if jsonlExists then some ⟨sid, workspace, none, false, none, none, none, now, now⟩
      else none
  | some m =>
      some ⟨sid, workspace, m.title, m.archived.getD false, m.project_id,
        m.entity_type, m.entity_id, m.created_at.getD now, m.updated_at.getD now⟩

/-- Optional field arguments of `update_session` (`None` = not supplied). -/
structure UpdateArgs where
  title : Option String := none
  archived : Option Bool := none
  project_id : Option String := none
  entity_type : Option String := none
  entity_id : Option String := none
  deriving Repr, DecidableEq

/-- Embeds `SessionManager.update_session`: start from the stored dict (or a
fresh one recording `created_at = now`), overwrite each field that was
supplied, stamp `updated_at` and `workspace_path`, save, and return the
updated store together with the result of `get_session` on it. -/
def update_session (store : MetaStore) (jsonlExists : Bool)
    (now workspace sid : String) (args : UpdateArgs) :
    MetaStore × Option SessionMetadata :=
  let base : StoredMeta :=
    match storeLookup store sid with
    | none => { created_at := some now }
    | some m => m
  let m1 : StoredMeta :=
    { title := if args.title.isSome then args.title else base.title
      archived := if args.archived.isSome then args.archived else base.archived
      project_id := if args.project_id.isSome then args.project_id else base.project_id
      entity_type := if args.entity_type.isSome then args.entity_type else base.entity_type
      entity_id := if args.entity_id.isSome then args.entity_id else base.entity_id
      created_at := base.created_at
      updated_at := some now
      workspace_path := some workspace }
  let store1 := storeInsert store sid m1
  (store1, get_session store1 jsonlExists now workspace sid)

/-! Orchestrator shared state and its interleaving semantics
(`SessionEventBus` plus `send_message` / `_process_session_messages` in
`server.py`), restricted to one session. The cooperative scheduler runs the
synchronous spans between `await` points atomically; each such span that
touches the shared state is one transition. -/

/-- Shared per-session orchestrator state, with counters for the tasks at
each synchronous control point: `checkers` counts `send_message` calls that
have queued their message but not yet executed the `is_processing` check;
`spawned` counts created worker tasks that have not yet executed their own
guard; `running` counts workers past the guard (flag set) still in the drain
loop; `finishing` counts workers that saw an empty queue but have not yet
executed the `finally` block clearing the flag. -/
structure BusState where
  processing : Bool
  queue : List String
  checkers : Nat
  spawned : Nat
  running : Nat
  finishing : Nat
  deriving Repr, DecidableEq

/-- State with no pending work and no tasks. -/
def initBus : BusState := ⟨false, [], 0, 0, 0, 0⟩

/-- Atomic transitions of the orchestrator for one session.
`enqueue` is `queue_message` (append, then the caller proceeds to its check);
`checkBusy`/`checkIdle` are `send_message`'s `is_processing` check, spawning
a worker task only when idle; `guardBusy`/`guardIdle` are the worker's own
entry guard followed (when idle) by `set_processing(True)` — one synchronous
span; `dequeue` is one `get_next_message` pop; `finishLoop` is the pop that
finds the queue empty and leaves the loop; `clearFlag` is the `finally`
block's `set_processing(False)`. -/
inductive BusStep : BusState → BusState → Prop where
  | enqueue (s : BusState) (m : String) :
      BusStep s ⟨s.processing, s.queue ++ [m], s.checkers + 1, s.spawned, s.running, s.finishing⟩
  | checkBusy (s : BusState) (hc : 0 < s.checkers) (hp : s.processing = true) :
      BusStep s ⟨s.processing, s.queue, s.checkers - 1, s.spawned, s.running, s.finishing⟩
  | checkIdle (s : BusState) (hc : 0 < s.checkers) (hp : s.processing = false) :
      BusStep s ⟨s.processing, s.queue, s.checkers - 1, s.spawned + 1, s.running, s.finishing⟩
  | guardBusy (s : BusState) (hs : 0 < s.spawned) (hp : s.processing = true) :
      BusStep s ⟨s.processing, s.queue, s.checkers, s.spawned - 1, s.running, s.finishing⟩
  | guardIdle (s : BusState) (hs : 0 < s.spawned) (hp : s.processing = false) :
      BusStep s ⟨true, s.queue, s.checkers, s.spawned - 1, s.running + 1, s.finishing⟩
  | dequeue (s : BusState) (m : String) (rest : List String)
      (hr : 0 < s.running) (hq : s.queue = m :: rest) :
      BusStep s ⟨s.processing, rest, s.checkers, s.spawned, s.running, s.finishing⟩
  | finishLoop (s : BusState) (hr : 0 < s.running) (hq : s.queue = []) :
      BusStep s ⟨s.processing, s.queue, s.checkers, s.spawned, s.running - 1, s.finishing + 1⟩
  | clearFlag (s : BusState) (hf : 0 < s.finishing) :
      BusStep s ⟨false, s.queue, s.checkers, s.spawned, s.running, s.finishing - 1⟩

/-- States reachable from the initial state by any interleaving. -/
def BusReachable (s : BusState) : Prop :=
  Relation.ReflTransGen BusStep initBus s

/-- Number of workers currently executing between setting and clearing the
processing flag. -/
def workersInFlight (s : BusState) : Nat :=
  s.running + s.finishing

/-! FIFO semantics of one session's pending-message queue
(`SessionEventBus.queue_message` putting at the back of an `asyncio.Queue`,
`get_next_message` taking from the front). `processed` records the order in
which dequeued messages are handed to the engine. -/

/-- Queue contents plus the messages already handed to the engine, in order. -/
structure QueueState where
  queue : List String
  processed : List String
  deriving Repr, DecidableEq

/-- One operation on a session's queue: an enqueue by `queue_message`, or a
dequeue by the worker's `get_next_message` (a no-op on an empty queue, where
the code returns `None`). -/
inductive QueueOp where
  | enq (m : String)
  | deq
  deriving Repr, DecidableEq

/-- Effect of one queue operation. -/
def applyQueueOp (s : QueueState) : QueueOp → QueueState
  | .enq m => ⟨s.queue ++ [m], s.processed⟩
  | .deq =>
    match s.queue with
    | [] => s
    | m :: rest => ⟨rest, s.processed ++ [m]⟩

/-- State after an interleaving of enqueues and dequeues, from empty. -/
def runQueueOps (ops : List QueueOp) : QueueState :=
  ops.foldl applyQueueOp ⟨[], []⟩

/-- The messages enqueued by an operation sequence, in order. -/
def enqueuedOf (ops : List QueueOp) : List String :=
  ops.filterMap (fun op => match op with | .enq m => some m | .deq => none)

/-! Worker drain loop (`_process_session_messages`): per queued message it
publishes `processing_start`, republishes the engine's translated event
stream, and either publishes the consolidated `assistant_message` (when any
text was streamed) and triggers the commit, or — when the engine call raises —
publishes an `error` event with the failure description and moves on. After
the queue drains it publishes `done`; the `finally` block clears the
processing flag whatever happened. -/

/-- Events published to a session's subscribers (the `SessionEvent` type
strings of `server.py`, with each event's payload fields). -/
inductive SEvent where
  | user_message (text : String)
  | processing_start (text : String)
  | text_delta (text : String)
  | tool_use (tool : Option String) (status : String)
  | assistant_message (content : String)
  | error (err : String)
  | done (sid : String)
  deriving Repr, DecidableEq

/-- Outcome of one engine call (`agent.send_message` consumed to the end):
the translated progress events republished while streaming, then either
normal completion with the accumulated turn text, or an exception whose
description is `err` (raised after the listed events were already out). -/
inductive TurnOutcome where
  | ok (streamEvents : List SEvent) (finalText : String)
  | raises (streamEvents : List SEvent) (err : String)
  deriving Repr, DecidableEq

/-- Events published while handling one queued message. -/
def turnEvents (msg : String) (o : TurnOutcome) : List SEvent :=
  SEvent.processing_start msg ::
  match o with
  | .ok evs finalText =>
      evs ++ (if finalText = "" then [] else [SEvent.assistant_message finalText])
  | .raises evs err => evs ++ [SEvent.error err]

/-- The drain loop over the queued messages with their engine outcomes. -/
def drainLoop : List (String × TurnOutcome) → List SEvent
  | [] => []
  | (msg, o) :: rest => turnEvents msg o ++ drainLoop rest

/-- Embeds one full worker run of `_process_session_messages` on a queue of
messages: the published events, and the value of the processing flag when the
worker exits (the `finally` block always ends with `set_processing(False)`). -/
def runWorker (sid : String) (turns : List (String × TurnOutcome)) :
    List SEvent × Bool :=
  (drainLoop turns ++ [SEvent.done sid], false)

/-! Event-stream endpoint (`session_events` in `server.py`): the SSE
generator as the sequence of its actions. Each element of `waits` is the
outcome of one `asyncio.wait_for(queue.get(), timeout=15.0)`: an event
delivered in time, or `none` for a `TimeoutError`. The generator stops when
the client disconnects, after which the `finally` block unsubscribes. -/

/-- Timeout, in seconds, of one delivery wait (the literal `15.0`). -/
def keepaliveTimeoutSeconds : Nat := 15

/-- A frame written to the SSE response. -/
inductive Frame where
  | connected (sid : String)
  | history (msgs : List SessionMessage)
  | event (e : SEvent)
  | keepalive
  deriving Repr, DecidableEq

/-- An observable action of the SSE generator. -/
inductive StreamAction where
  | subscribe
  | emit (f : Frame)
  | readHistory
  | waitEvent (timedOut : Bool)
  | unsubscribe
  deriving Repr, DecidableEq

/-- The live tail of the stream: one wait per element of `waits`, emitting
the delivered event or — on timeout — a synthetic keepalive, then waiting
again. -/
def liveTail : List (Option SEvent) → List StreamAction
  | [] => []
  | some e :: rest => .waitEvent false :: .emit (.event e) :: liveTail rest
  | none :: rest => .waitEvent true :: .emit .keepalive :: liveTail rest

/-- Embeds the `session_events` generator: subscribe, emit the `connected`
frame, read the transcript history, emit it as the single `history` frame,
run the live tail, and unsubscribe in the `finally` block. The bus state is
returned unchanged: the generator only reads from its own delivery queue and
never touches the queue, flag, or workers. -/
def session_events (bus : BusState) (fs : Fs) (home workspace sid : String)
    (waits : List (Option SEvent)) : List StreamAction × BusState :=
  (StreamAction.subscribe ::
    .emit (.connected sid) ::
    .readHistory ::
    .emit (.history (get_history fs home workspace sid)) ::
    (liveTail waits ++ [StreamAction.unsubscribe]), bus)

/-- Frames actually written to the response, in order. -/
def framesOf (tr : List StreamAction) : List Frame :=
  tr.filterMap (fun a => match a with | .emit f => some f | _ => none)

/-- Whether a frame is a history frame. -/
def isHistoryFrame : Frame → Bool
  | .history _ => true
  | _ => false

/-! Specification-side rendering of the consolidation pass, written after the
spec sentence: the transcript is cut into turns at user messages; within a
turn, tool-use/tool-result messages stay where they occurred and all
assistant text of the turn is flushed as one assistant message immediately
before the next user message (or at the end of the transcript). -/

/-- Messages that do not end a turn. -/
def notUser (m : SessionMessage) : Bool :=
  !(m.role == "user")

/-- The tool-use/tool-result messages of one turn, in occurrence order. -/
def turnTools (seg : List SessionMessage) : List SessionMessage :=
  seg.filter (fun m => !(m.role == "user") && !(m.role == "assistant"))

/-- The assistant texts accumulated during one turn, in occurrence order. -/
def asstTexts (seg : List SessionMessage) : List String :=
  (seg.filter (fun m => m.role == "assistant")).map (·.content)

/-- The single assistant message flushed for one turn, if the turn
accumulated any assistant text. -/
def turnAssistant (seg : List SessionMessage) : List SessionMessage :=
  if (asstTexts seg).isEmpty then []
  else [⟨"assistant", joinSep "\n\n" (asstTexts seg), none⟩]

/-- Turn-by-turn statement of the consolidation pass (`seg` is the maximal
run of non-user messages, ended by the next user message when one exists). -/
def consolidateSpec (msgs : List SessionMessage) : List SessionMessage :=
  match h : msgs.dropWhile notUser with
  | [] =>
      turnTools (msgs.takeWhile notUser) ++ turnAssistant (msgs.takeWhile notUser)
  | u :: rest =>
      turnTools (msgs.takeWhile notUser) ++ turnAssistant (msgs.takeWhile notUser)
        ++ u :: consolidateSpec rest
termination_by msgs.length
decreasing_by
  have hle : ∀ l : List SessionMessage, (l.dropWhile notUser).length ≤ l.length := by
    intro l
    induction l with
    | nil => simp
    | cons a l ih =>
      rw [List.dropWhile_cons]
      by_cases hp : notUser a = true
      · simp only [hp, if_true]
        exact Nat.le_succ_of_le ih
      · simp [hp]
  have h1 := hle msgs
  rw [h] at h1
  simp only [List.length_cons] at h1
  omega

/-- The texts contributed by the text-typed blocks of an assistant entry. -/
def textParts (bs : List Block) : List String :=
  bs.filterMap (fun b => match b with
    | .obj btype t _ _ _ => if btype = some "text" then some (t.getD "") else none
    | .str _ => none)

/-- The standalone tool messages contributed by the blocks of an assistant
entry. -/
def toolMsgs (bs : List Block) : List SessionMessage :=
  bs.filterMap (fun b => match b with
    | .str _ => none
    | .obj btype _ name input rcontent =>
      if btype = some "text" then none
      else if btype = some "tool_use" then
        some ⟨"tool_use", input.getD "\x7b\x7d", name⟩
      else if btype = some "tool_result" then
        some ⟨"tool_result", (toolResultText rcontent).take 1000, none⟩
      else none)

/-- No two adjacent messages are both assistant-role. -/
def noTwoAdjacentAssistants (msgs : List SessionMessage) : Prop :=
  List.Chain' (fun a b => ¬(a.role = "assistant" ∧ b.role = "assistant")) msgs

/-- Every text-typed block of every (non-meta) assistant entry carries a
non-empty text. -/
def assistantTextBlocksNonempty (es : List Entry) : Prop :=
  ∀ e ∈ es, e.etype = some "assistant" → e.isMeta = false →
    ∀ bs, e.content = .blocks bs →
      ∀ b ∈ bs, ∀ t n i r, b = .obj (some "text") t n i r → t.getD "" ≠ ""

/-! Concrete inputs used by counterexample and witness theorems. -/

/-- A transcript entry holding one user message. -/
def c1UserEntry : Entry := ⟨some "user", false, .str "hi"⟩

/-- Filesystem after the engine wrote the canonical transcript
`eng-42.jsonl` into the SDK sessions directory of workspace `/opt/ws`
(home `/root`): the directory layout of a run in which the engine minted a
canonical identifier different from the client-visible `local-1`. -/
def c1Fs : Fs :=
  [(transcriptPath "/root" "/opt/ws" "eng-42", .file [some c1UserEntry])]

/-- Bus state after one `enqueue` from the initial state. -/
def c2s1 : BusState := ⟨false, ["m"], 1, 0, 0, 0⟩

/-- Bus state after the enqueuer's idle check spawned a worker task. -/
def c2s2 : BusState := ⟨false, ["m"], 0, 1, 0, 0⟩

/-- Bus state after the worker passed its guard and set the flag. -/
def c2s3 : BusState := ⟨true, ["m"], 0, 0, 1, 0⟩

/-- An assistant entry whose only content block is a text block with empty
text. -/
def c10Entry : Entry :=
  ⟨some "assistant", false, .blocks [.obj (some "text") (some "") none none none]⟩

/-- An assistant entry whose only content block is a text block with the
non-empty text `hello`. -/
def c10GoodEntry : Entry :=
  ⟨some "assistant", false, .blocks [.obj (some "text") (some "hello") none none none]⟩

/-! Theorems. -/

theorem foldl_applyQueueOp (ops : List QueueOp) :
    ∀ s : QueueState,
      (ops.foldl applyQueueOp s).processed ++ (ops.foldl applyQueueOp s).queue
        = s.processed ++ s.queue ++ enqueuedOf ops := by
  induction ops with
  | nil => intro s; simp [enqueuedOf]
  | cons op ops ih =>
    intro s
    cases op with
    | enq m =>
      rw [List.foldl_cons, ih (applyQueueOp s (.enq m))]
      simp [applyQueueOp, enqueuedOf]
    | deq =>
      rw [List.foldl_cons, ih (applyQueueOp s .deq)]
      match hq : s.queue with
      | [] => simp [applyQueueOp, hq, enqueuedOf]
      | m :: rest => simp [applyQueueOp, hq, enqueuedOf]

/-- C3: for every interleaving of enqueues and dequeues on a session's
pending queue, the messages handed to the engine (`processed`) followed by
the messages still queued equal the enqueued messages in enqueue order — the
worker dequeues and processes messages in exactly FIFO order. -/
theorem C3_fifo_order (ops : List QueueOp) :
    (runQueueOps ops).processed ++ (runQueueOps ops).queue = enqueuedOf ops := by
  have h := foldl_applyQueueOp ops ⟨[], []⟩
  simpa [runQueueOps] using h

theorem drainLoop_append (l1 l2 : List (String × TurnOutcome)) :
    drainLoop (l1 ++ l2) = drainLoop l1 ++ drainLoop l2 := by
  induction l1 with
  | nil => simp [drainLoop]
  | cons t l1 ih =>
    cases t with
    | mk msg o => simp [drainLoop, ih]

/-- C5: when the engine call for one queued message raises, the worker
publishes the already-streamed events followed by an `error` event carrying
the failure description, then continues: the messages before and after the
failing one contribute their normal event segments, the final `done` event is
still published, and the processing flag is false when the worker exits. -/
theorem C5_error_isolation (sid : String) (pre post : List (String × TurnOutcome))
    (msg : String) (evs : List SEvent) (err : String) :
    runWorker sid (pre ++ (msg, TurnOutcome.raises evs err) :: post)
      = (drainLoop pre
          ++ (SEvent.processing_start msg :: (evs ++ [SEvent.error err]))
          ++ drainLoop post ++ [SEvent.done sid], false) := by
  simp [runWorker, drainLoop_append, drainLoop, turnEvents]

/-- C6: a missing transcript file yields the empty history rather than an
error, and a malformed (unparseable) line is skipped without affecting the
parse of the remaining lines. -/
theorem C6_failure_semantics :
    (∀ (fs : Fs) (home ws sid : String),
        readFile fs (transcriptPath home ws sid) = none →
          get_history fs home ws sid = [])
    ∧ (∀ l1 l2 : List (Option Entry),
        historyOfLines (l1 ++ none :: l2) = historyOfLines (l1 ++ l2)) := by
  constructor
  · intro fs home ws sid h
    simp [get_history, h]
  · intro l1 l2
    simp [historyOfLines]

/-- Witness for C6 at a concrete empty filesystem and a concrete line list
with one malformed line. -/
theorem C6_witness :
    get_history [] "/root" "/opt/ws" "s1" = []
    ∧ historyOfLines [none, some c1UserEntry] = historyOfLines [some c1UserEntry] :=
  ⟨C6_failure_semantics.1 [] "/root" "/opt/ws" "s1" rfl,
   C6_failure_semantics.2 [] [some c1UserEntry]⟩

theorem liveTail_append (w1 w2 : List (Option SEvent)) :
    liveTail (w1 ++ w2) = liveTail w1 ++ liveTail w2 := by
  induction w1 with
  | nil => simp [liveTail]
  | cons w rest ih =>
    cases w with
    | none => simp [liveTail, ih]
    | some e => simp [liveTail, ih]

/-- C8: whenever a delivery wait times out (after the bounded 15-second
timeout), the stream emits a synthetic keepalive frame and resumes waiting on
the remaining deliveries, and the generator leaves the orchestrator state —
queue, flag, workers — untouched, so no worker is interrupted or cancelled. -/
theorem C8_keepalive_liveness (w1 w2 : List (Option SEvent)) (bus : BusState)
    (fs : Fs) (home ws sid : String) :
    liveTail (w1 ++ none :: w2)
      = liveTail w1
        ++ StreamAction.waitEvent true :: StreamAction.emit Frame.keepalive :: liveTail w2
    ∧ (session_events bus fs home ws sid (w1 ++ none :: w2)).2 = bus
    ∧ keepaliveTimeoutSeconds = 15 := by
  refine ⟨?_, rfl, rfl⟩
  rw [liveTail_append]
  rfl

/-- Inductive invariant of the orchestrator state: at most one worker is
between setting and clearing the flag, and the flag is set exactly when one
is. -/
def busInv (s : BusState) : Prop :=
  workersInFlight s ≤ 1 ∧ (s.processing = true ↔ workersInFlight s = 1)

theorem busStep_preserves_inv {s s' : BusState} (hstep : BusStep s s')
    (hinv : busInv s) : busInv s' := by
  obtain ⟨hle, hiff⟩ := hinv
  simp only [workersInFlight] at hle hiff
  cases hstep with
  | enqueue m =>
    simp only [busInv, workersInFlight]
    exact ⟨hle, hiff⟩
  | checkBusy hc hp =>
    simp only [busInv, workersInFlight]
    exact ⟨hle, hiff⟩
  | checkIdle hc hp =>
    simp only [busInv, workersInFlight]
    exact ⟨hle, hiff⟩
  | guardBusy hs hp =>
    simp only [busInv, workersInFlight]
    exact ⟨hle, hiff⟩
  | guardIdle hs hp =>
    rw [hp] at hiff
    have hne : s.running + s.finishing ≠ 1 := fun h1 =>
      absurd (hiff.mpr h1) (by decide)
    simp only [busInv, workersInFlight]
    exact ⟨by omega, ⟨fun _ => by omega, fun _ => trivial⟩⟩
  | dequeue m rest hr hq =>
    simp only [busInv, workersInFlight]
    exact ⟨hle, hiff⟩
  | finishLoop hr hq =>
    have hp : s.processing = true := hiff.mpr (by omega)
    simp only [busInv, workersInFlight, hp]
    exact ⟨by omega, ⟨fun _ => by omega, fun _ => trivial⟩⟩
  | clearFlag hf =>
    simp only [busInv, workersInFlight]
    exact ⟨by omega, ⟨fun h => absurd h (by decide), fun hc => absurd hc (by omega)⟩⟩

/-- C2: in every state reachable from the initial state under any
interleaving of enqueues, worker spawns, worker guards, dequeues, and exits,
at most one worker is executing between setting and clearing the processing
flag for the session — a second enqueue while a worker runs never results in
a second in-flight worker. -/
theorem C2_single_flight (s : BusState) (h : BusReachable s) :
    workersInFlight s ≤ 1 := by
  have hinv : busInv s := by
    induction h with
    | refl =>
      constructor
      · simp [workersInFlight, initBus]
      · simp [workersInFlight, initBus]
    | tail _ hstep ih => exact busStep_preserves_inv hstep ih
  exact hinv.1

/-- Witness for C2 on the concrete run enqueue → idle check (spawn) → guard
(flag set): a state with one in-flight worker. -/
theorem C2_witness : workersInFlight c2s3 ≤ 1 :=
  C2_single_flight c2s3
    (Relation.ReflTransGen.tail
      (Relation.ReflTransGen.tail
        (Relation.ReflTransGen.tail Relation.ReflTransGen.refl
          (BusStep.enqueue initBus "m"))
        (BusStep.checkIdle c2s1 (by decide) rfl))
      (BusStep.guardIdle c2s2 (by decide) rfl))

theorem find?_map_insert (sid : String) (m : StoredMeta) :
    ∀ l : MetaStore, (l.find? (fun x => x.1 == sid)).isSome = true →
      (l.map (fun e => if e.1 == sid then (sid, m) else e)).find?
          (fun x => x.1 == sid) = some (sid, m) := by
  intro l
  induction l with
  | nil => intro h; simp at h
  | cons e rest ih =>
    intro h
    by_cases pe : (e.1 == sid) = true
    · rw [List.map_cons, if_pos pe]
      exact List.find?_cons_of_pos _ (by simp)
    · have pe2 : ¬((e.1 == sid) = true) := pe
      rw [List.map_cons, if_neg pe2]
      rw [List.find?_cons_of_neg (p := fun x : String × StoredMeta => x.1 == sid) (a := e) _ pe2]
      apply ih
      rw [List.find?_cons_of_neg (p := fun x : String × StoredMeta => x.1 == sid) (a := e) _ pe2] at h
      exact h

theorem find?_append_self (sid : String) (m : StoredMeta) :
    ∀ l : MetaStore, (l.find? (fun x => x.1 == sid)).isSome = false →
      (l ++ [(sid, m)]).find? (fun x => x.1 == sid) = some (sid, m) := by
  intro l
  induction l with
  | nil => intro _; exact List.find?_cons_of_pos _ (by simp)
  | cons e rest ih =>
    intro h
    have pe2 : ¬((e.1 == sid) = true) := by
      intro pe
      rw [List.find?_cons_of_pos (p := fun x : String × StoredMeta => x.1 == sid) (a := e) _ pe] at h
      simp at h
    rw [List.find?_cons_of_neg (p := fun x : String × StoredMeta => x.1 == sid) (a := e) _ pe2] at h
    rw [List.cons_append, List.find?_cons_of_neg (p := fun x : String × StoredMeta => x.1 == sid) (a := e) _ pe2]
    exact ih h

theorem storeLookup_storeInsert (store : MetaStore) (sid : String) (m : StoredMeta) :
    storeLookup (storeInsert store sid m) sid = some m := by
  unfold storeLookup storeInsert
  by_cases hc : ((store.find? (fun e => e.1 == sid)).isSome) = true
  · rw [if_pos hc, find?_map_insert sid m store hc]
    rfl
  · have hc2 : (store.find? (fun e => e.1 == sid)).isSome = false :=
      Bool.eq_false_iff.mpr hc
    rw [if_neg hc, find?_append_self sid m store hc2]
    rfl

/-- C9: `update_session` is an upsert: with no stored entry it creates one
recording `created_at = now` instead of failing; it always stamps
`updated_at = now`; it returns a non-absent metadata record; and a subsequent
`get_session` on the saved store does not return absent. -/
theorem C9_update_session_upsert (store : MetaStore) (jsonlExists : Bool)
    (now workspace sid : String) (args : UpdateArgs) :
    (storeLookup store sid = none →
      (storeLookup (update_session store jsonlExists now workspace sid args).1 sid).map
        (·.created_at) = some (some now))
    ∧ (∃ m, storeLookup (update_session store jsonlExists now workspace sid args).1 sid
          = some m ∧ m.updated_at = some now)
    ∧ (update_session store jsonlExists now workspace sid args).2.isSome = true
    ∧ (get_session (update_session store jsonlExists now workspace sid args).1
        jsonlExists now workspace sid).isSome = true := by
  cases hbase : storeLookup store sid with
  | none =>
    simp only [update_session, hbase]
    refine ⟨fun _ => ?_, ?_, ?_, ?_⟩
    · rw [storeLookup_storeInsert]; rfl
    · exact ⟨_, storeLookup_storeInsert _ _ _, rfl⟩
    · simp [get_session, storeLookup_storeInsert]
    · simp [get_session, storeLookup_storeInsert]
  | some m0 =>
    simp only [update_session, hbase]
    refine ⟨fun hnone => ?_, ?_, ?_, ?_⟩
    · cases hnone
    · exact ⟨_, storeLookup_storeInsert _ _ _, rfl⟩
    · simp [get_session, storeLookup_storeInsert]
    · simp [get_session, storeLookup_storeInsert]

/-- Witness for C9 on the empty store: the fresh entry records
`created_at = now`. -/
theorem C9_witness :
    (storeLookup (update_session [] false "t0" "/opt/ws" "s1" {}).1 "s1").map
      (·.created_at) = some (some "t0") :=
  (C9_update_session_upsert [] false "t0" "/opt/ws" "s1" {}).1 rfl

theorem framesOf_liveTail_no_history (waits : List (Option SEvent)) :
    (framesOf (liveTail waits)).all (fun f => !isHistoryFrame f) = true := by
  induction waits with
  | nil => rfl
  | cons w rest ih =>
    cases w with
    | none => simpa [liveTail, framesOf, isHistoryFrame] using ih
    | some e => simpa [liveTail, framesOf, isHistoryFrame] using ih

/-- C7: subscribing to any session — including one with no metadata and no
transcript — yields a stream whose first actions are: register the
subscriber's channel, emit the `connected` frame, only then read the history,
and emit it as one `history` frame; every frame of the live tail is a
non-history frame, so exactly one history frame is emitted, before any live
event; and when no transcript exists the history frame's message list is
empty. -/
theorem C7_subscribe_stream (bus : BusState) (fs : Fs) (home ws sid : String)
    (waits : List (Option SEvent)) :
    ((session_events bus fs home ws sid waits).1).take 4
        = [StreamAction.subscribe, .emit (.connected sid), .readHistory,
           .emit (.history (get_history fs home ws sid))]
    ∧ framesOf (session_events bus fs home ws sid waits).1
        = Frame.connected sid :: Frame.history (get_history fs home ws sid)
            :: framesOf (liveTail waits)
    ∧ (framesOf (liveTail waits)).all (fun f => !isHistoryFrame f) = true
    ∧ (readFile fs (transcriptPath home ws sid) = none →
        get_history fs home ws sid = []) := by
  refine ⟨?_, ?_, framesOf_liveTail_no_history waits, ?_⟩
  · simp [session_events]
  · simp [session_events, framesOf]
  · intro hmissing
    simp [get_history, hmissing]

/-- Witness for C7 on the empty filesystem (a session that exists nowhere)
with a one-element live tail. -/
theorem C7_witness :
    framesOf (session_events initBus [] "/root" "/opt/ws" "s1" [none]).1
        = Frame.connected "s1" :: Frame.history (get_history [] "/root" "/opt/ws" "s1")
            :: framesOf (liveTail [none])
    ∧ get_history [] "/root" "/opt/ws" "s1" = [] :=
  ⟨(C7_subscribe_stream initBus [] "/root" "/opt/ws" "s1" [none]).2.1,
   (C7_subscribe_stream initBus [] "/root" "/opt/ws" "s1" [none]).2.2.2 rfl⟩

/-- C1: evaluation of the code at the reconciliation scenario. The engine
wrote the canonical transcript `eng-42.jsonl` into the SDK sessions
directory; the worker's reconciliation step looks for the canonical file —
and would create the alias — in `\x7bworkspace\x7d/.chelle/sessions`, a
directory `get_history` never reads, so after reconciliation a history read
under the client-visible identifier `local-1` returns nothing while a read
under the canonical identifier `eng-42` returns the transcript's messages:
the two reads differ, contrary to the claim. -/
theorem C1_alias_ineffective :
    get_history (reconcileAlias c1Fs "/opt/ws" "local-1" "eng-42")
        "/root" "/opt/ws" "local-1" = []
    ∧ get_history (reconcileAlias c1Fs "/opt/ws" "local-1" "eng-42")
        "/root" "/opt/ws" "eng-42" = [⟨"user", "hi", none⟩]
    ∧ get_history (reconcileAlias c1Fs "/opt/ws" "local-1" "eng-42")
          "/root" "/opt/ws" "local-1"
        ≠ get_history (reconcileAlias c1Fs "/opt/ws" "local-1" "eng-42")
          "/root" "/opt/ws" "eng-42" := by
  refine ⟨by decide, by decide, by decide⟩

theorem length_dropWhile_notUser_le (l : List SessionMessage) :
    (l.dropWhile notUser).length ≤ l.length := by
  induction l with
  | nil => simp
  | cons a l ih =>
    rw [List.dropWhile_cons]
    by_cases hp : notUser a = true
    · simp only [hp, if_true]
      exact Nat.le_succ_of_le ih
    · simp [hp]

theorem notUser_of_dropWhile_cons {msgs rest : List SessionMessage}
    {u : SessionMessage} (hdrop : msgs.dropWhile notUser = u :: rest) :
    u.role = "user" := by
  have hfalse : notUser u = false := by
    induction msgs with
    | nil => simp [List.dropWhile] at hdrop
    | cons a l ih =>
      rw [List.dropWhile_cons] at hdrop
      by_cases hp : notUser a = true
      · rw [if_pos hp] at hdrop
        exact ih hdrop
      · have hp2 : notUser a = false := Bool.eq_false_iff.mpr hp
        rw [if_neg (by simp [hp2])] at hdrop
        cases hdrop
        exact hp2
  simpa [notUser] using hfalse

theorem consolidateSpec_eq_nil {msgs : List SessionMessage}
    (h : msgs.dropWhile notUser = []) :
    consolidateSpec msgs
      = turnTools (msgs.takeWhile notUser) ++ turnAssistant (msgs.takeWhile notUser) := by
  rw [consolidateSpec.eq_def]
  split
  · rfl
  · next u rest heq => rw [h] at heq; cases heq

theorem consolidateSpec_eq_cons {msgs rest : List SessionMessage}
    {u : SessionMessage} (h : msgs.dropWhile notUser = u :: rest) :
    consolidateSpec msgs
      = turnTools (msgs.takeWhile notUser) ++ turnAssistant (msgs.takeWhile notUser)
        ++ u :: consolidateSpec rest := by
  rw [consolidateSpec.eq_def]
  split
  · next heq => rw [h] at heq; cases heq
  · next u2 rest2 heq =>
      rw [h] at heq
      cases heq
      rfl

theorem consolidateAux_userfree (seg : List SessionMessage)
    (h : ∀ m ∈ seg, m.role ≠ "user") (tail : List SessionMessage) :
    ∀ pending : List String,
      consolidateAux (seg ++ tail) pending
        = turnTools seg ++ consolidateAux tail (pending ++ asstTexts seg) := by
  induction seg with
  | nil =>
    intro pending
    simp [turnTools, asstTexts]
  | cons m seg ih =>
    intro pending
    have hm : m.role ≠ "user" := h m (by simp)
    have hrest : ∀ x ∈ seg, x.role ≠ "user" := fun x hx => h x (by simp [hx])
    by_cases ha : m.role = "assistant"
    · rw [List.cons_append]
      simp only [consolidateAux, if_neg hm, if_pos ha]
      rw [ih hrest (pending ++ [m.content])]
      simp [turnTools, asstTexts, List.filter_cons, ha, List.append_assoc]
    · rw [List.cons_append]
      simp only [consolidateAux, if_neg hm, if_neg ha]
      rw [ih hrest pending]
      have hm2 : (m.role == "user") = false := by
        simpa using hm
      have ha2 : (m.role == "assistant") = false := by
        simpa using ha
      simp [turnTools, asstTexts, List.filter_cons, hm2, ha2]

theorem consolidate_eq_consolidateSpec (msgs : List SessionMessage) :
    consolidate msgs = consolidateSpec msgs := by
  have H : ∀ n, ∀ msgs : List SessionMessage, msgs.length ≤ n →
      consolidate msgs = consolidateSpec msgs := by
    intro n
    induction n with
    | zero =>
      intro msgs hlen
      have hnil : msgs = [] := List.length_eq_zero.mp (Nat.le_zero.mp hlen)
      subst hnil
      rw [consolidateSpec_eq_nil (by rfl)]
      rfl
    | succ n ih =>
      intro msgs hlen
      have hseg : ∀ m ∈ msgs.takeWhile notUser, m.role ≠ "user" := by
        intro m hm
        have hmem := List.mem_takeWhile_imp hm
        simp only [notUser, Bool.not_eq_true'] at hmem
        intro hc
        rw [hc] at hmem
        simp at hmem
      have hsplit : msgs.takeWhile notUser ++ msgs.dropWhile notUser = msgs :=
        List.takeWhile_append_dropWhile notUser msgs
      match hdrop : msgs.dropWhile notUser with
      | [] =>
        rw [consolidateSpec_eq_nil hdrop]
        rw [hdrop] at hsplit
        conv_lhs => rw [consolidate, ← hsplit]
        rw [consolidateAux_userfree _ hseg []]
        simp only [consolidateAux, List.nil_append]
        rfl
      | u :: rest =>
        have hu : u.role = "user" := notUser_of_dropWhile_cons hdrop
        rw [consolidateSpec_eq_cons hdrop]
        rw [hdrop] at hsplit
        conv_lhs => rw [consolidate, ← hsplit]
        rw [consolidateAux_userfree _ hseg (u :: rest)]
        simp only [consolidateAux, List.nil_append, if_pos hu]
        have hlen2 : rest.length ≤ n := by
          have h1 := length_dropWhile_notUser_le msgs
          rw [hdrop] at h1
          simp only [List.length_cons] at h1
          omega
        have hr := ih rest hlen2
        rw [consolidate] at hr
        rw [hr]
        rw [show flushPending (asstTexts (msgs.takeWhile notUser))
              = turnAssistant (msgs.takeWhile notUser) from rfl]
        simp [List.append_assoc]
  exact H msgs.length msgs le_rfl

/-- C4: the consolidation performed by `get_history` agrees, on every
transcript, with the turn-by-turn specification: per user turn, all assistant
text accumulated since the last user message is flushed as a single
assistant-role message placed immediately before the next user message (or at
the end), with tool-use/tool-result messages kept where they occurred. -/
theorem C4_history_consolidation (lines : List (Option Entry)) :
    historyOfLines lines = consolidateSpec (parseEntries (lines.filterMap id)) := by
  rw [historyOfLines]
  exact consolidate_eq_consolidateSpec _

theorem consolidateAux_noTwoAdjacent (msgs : List SessionMessage) :
    ∀ pending, noTwoAdjacentAssistants (consolidateAux msgs pending) := by
  induction msgs with
  | nil =>
    intro pending
    unfold noTwoAdjacentAssistants
    simp only [consolidateAux, flushPending]
    by_cases h : pending.isEmpty <;> simp [h]
  | cons m rest ih =>
    intro pending
    unfold noTwoAdjacentAssistants at ih ⊢
    simp only [consolidateAux]
    by_cases hu : m.role = "user"
    · rw [if_pos hu]
      rw [List.chain'_append]
      refine ⟨?_, ?_, ?_⟩
      · by_cases h : pending.isEmpty <;> simp [flushPending, h]
      · rw [List.chain'_cons']
        refine ⟨?_, ih []⟩
        intro y _ hcontra
        rw [hu] at hcontra
        exact absurd hcontra.1 (by decide)
      · intro x _ y hy
        have hym : y = m := by
          simp at hy
          exact hy.symm
        intro hcontra
        rw [hym, hu] at hcontra
        exact absurd hcontra.2 (by decide)
    · by_cases ha : m.role = "assistant"
      · rw [if_neg hu, if_pos ha]
        exact ih (pending ++ [m.content])
      · rw [if_neg hu, if_neg ha]
        rw [List.chain'_cons']
        refine ⟨?_, ih pending⟩
        intro y _ hcontra
        exact ha hcontra.1

theorem string_ne_empty_length_pos {s : String} (h : s ≠ "") : 0 < s.length := by
  rcases s with ⟨data⟩
  cases data with
  | nil => exact absurd rfl h
  | cons c cs => simp [String.length]

theorem joinSep_ne_empty (sep : String) :
    ∀ parts : List String, parts ≠ [] → (∀ p ∈ parts, p ≠ "") →
      joinSep sep parts ≠ "" := by
  intro parts
  induction parts with
  | nil => intro hne _; exact absurd rfl hne
  | cons a rest ih =>
    intro _ hall
    have ha : a ≠ "" := hall a (by simp)
    cases rest with
    | nil =>
      rw [joinSep]
      exact ha
    | cons b r =>
      rw [joinSep]
      intro hcontra
      have hlen := congrArg String.length hcontra
      simp only [String.length_append] at hlen
      have h0 : ("" : String).length = 0 := rfl
      rw [h0] at hlen
      have := string_ne_empty_length_pos ha
      omega

theorem foldl_assistantStep_eq (bs : List Block) :
    ∀ acc : List String × List SessionMessage,
      bs.foldl assistantStep acc = (acc.1 ++ textParts bs, acc.2 ++ toolMsgs bs) := by
  induction bs with
  | nil => intro acc; simp [textParts, toolMsgs]
  | cons b rest ih =>
    intro acc
    rw [List.foldl_cons, ih (assistantStep acc b)]
    cases b with
    | str s => simp [assistantStep, textParts, toolMsgs, List.filterMap_cons]
    | obj btype text name input rcontent =>
      by_cases h1 : btype = some "text"
      · simp [assistantStep, textParts, toolMsgs, List.filterMap_cons, h1]
      · by_cases h2 : btype = some "tool_use"
        · simp [assistantStep, textParts, toolMsgs, List.filterMap_cons, h1, h2]
        · by_cases h3 : btype = some "tool_result"
          · simp [assistantStep, textParts, toolMsgs, List.filterMap_cons, h1, h2, h3]
          · simp [assistantStep, textParts, toolMsgs, List.filterMap_cons, h1, h2, h3]

theorem textParts_mem {bs : List Block} {p : String} (hp : p ∈ textParts bs) :
    ∃ t n i r, Block.obj (some "text") t n i r ∈ bs ∧ p = t.getD "" := by
  rw [textParts, List.mem_filterMap] at hp
  obtain ⟨b, hb, hfb⟩ := hp
  cases b with
  | str s => simp at hfb
  | obj btype text name input rcontent =>
    by_cases ht : btype = some "text"
    · simp only [ht, if_pos, Option.some_inj] at hfb
      subst ht
      exact ⟨text, name, input, rcontent, hb, hfb.symm⟩
    · simp [ht] at hfb

theorem toolMsgs_role {bs : List Block} {m : SessionMessage} (hm : m ∈ toolMsgs bs) :
    m.role = "tool_use" ∨ m.role = "tool_result" := by
  rw [toolMsgs, List.mem_filterMap] at hm
  obtain ⟨b, _, hfb⟩ := hm
  cases b with
  | str s => simp at hfb
  | obj btype text name input rcontent =>
    by_cases h1 : btype = some "text"
    · simp [h1] at hfb
    · by_cases h2 : btype = some "tool_use"
      · simp [h1, h2] at hfb
        subst hfb
        left; rfl
      · by_cases h3 : btype = some "tool_result"
        · simp [h1, h2, h3] at hfb
          subst hfb
          right; rfl
        · simp [h1, h2, h3] at hfb

theorem parseEntry_assistant_nonempty {e : Entry}
    (htext : e.etype = some "assistant" → e.isMeta = false →
      ∀ bs, e.content = .blocks bs →
        ∀ b ∈ bs, ∀ t n i r, b = Block.obj (some "text") t n i r → t.getD "" ≠ "") :
    ∀ m ∈ parseEntry e, m.role = "assistant" → m.content ≠ "" := by
  intro m hm hrole
  unfold parseEntry at hm
  by_cases hmeta : e.isMeta
  · simp [hmeta] at hm
  · have hmeta2 : e.isMeta = false := Bool.eq_false_iff.mpr hmeta
    rw [hmeta2] at hm
    simp only [Bool.false_eq_true, if_false] at hm
    match hty : e.etype with
    | none => rw [hty] at hm; simp at hm
    | some t =>
      rw [hty] at hm
      simp only at hm
      by_cases huser : t = "human" ∨ t = "user"
      · rw [if_pos huser] at hm
        match hc : e.content with
        | .str s =>
          rw [hc] at hm
          by_cases hst : stripTruthy s
          · simp [hst] at hm
            rw [hm] at hrole
            simp at hrole
          · simp [hst] at hm
        | .blocks bs =>
          rw [hc] at hm
          by_cases hts : (bs.filterMap userTextOfBlock).isEmpty
          · simp [hts] at hm
          · simp [hts] at hm
            rw [hm] at hrole
            simp at hrole
      · rw [if_neg huser] at hm
        by_cases hass : t = "assistant"
        · rw [if_pos hass] at hm
          match hc : e.content with
          | .str s => rw [hc] at hm; simp at hm
          | .blocks bs =>
            rw [hc] at hm
            simp only [foldl_assistantStep_eq bs ([], []), List.nil_append] at hm
            rcases List.mem_append.mp hm with h | h
            · rcases toolMsgs_role h with hr | hr <;>
                (rw [hrole] at hr; exact absurd hr (by decide))
            · by_cases he : (textParts bs).isEmpty
              · simp [he] at h
              · simp only [he, Bool.false_eq_true, if_false, List.mem_singleton] at h
                rw [h]
                apply joinSep_ne_empty "\n" (textParts bs)
                    (by simpa using he)
                intro p hp
                obtain ⟨t2, n2, i2, r2, hb2, hp2⟩ := textParts_mem hp
                rw [hp2]
                subst hass
                exact htext hty hmeta2 bs hc _ hb2 t2 n2 i2 r2 rfl
        · rw [if_neg hass] at hm
          simp at hm

theorem consolidateAux_assistant_nonempty (msgs : List SessionMessage) :
    ∀ pending, (∀ p ∈ pending, p ≠ "") →
      (∀ m ∈ msgs, m.role = "assistant" → m.content ≠ "") →
      ∀ m ∈ consolidateAux msgs pending, m.role = "assistant" → m.content ≠ "" := by
  induction msgs with
  | nil =>
    intro pending hp _ m hm _
    simp only [consolidateAux, flushPending] at hm
    by_cases he : pending.isEmpty
    · simp [he] at hm
    · simp only [he, Bool.false_eq_true, if_false, List.mem_singleton] at hm
      rw [hm]
      exact joinSep_ne_empty "\n\n" pending (by simpa using he) hp
  | cons x rest ih =>
    intro pending hp hmsgs m hm hrole
    have hx := hmsgs x (by simp)
    have htail : ∀ y ∈ rest, y.role = "assistant" → y.content ≠ "" :=
      fun y hy => hmsgs y (by simp [hy])
    simp only [consolidateAux] at hm
    by_cases hu : x.role = "user"
    · rw [if_pos hu] at hm
      rcases List.mem_append.mp hm with h | h
      · simp only [flushPending] at h
        by_cases he : pending.isEmpty
        · simp [he] at h
        · simp only [he, Bool.false_eq_true, if_false, List.mem_singleton] at h
          rw [h]
          exact joinSep_ne_empty "\n\n" pending (by simpa using he) hp
      · rcases List.mem_cons.mp h with h2 | h2
        · rw [h2] at hrole
          rw [hu] at hrole
          simp at hrole
        · exact ih [] (by simp) htail m h2 hrole
    · by_cases ha : x.role = "assistant"
      · rw [if_neg hu, if_pos ha] at hm
        refine ih (pending ++ [x.content]) ?_ htail m hm hrole
        intro p hpp
        rcases List.mem_append.mp hpp with h | h
        · exact hp p h
        · rw [List.mem_singleton.mp h]
          exact hx ha
      · rw [if_neg hu, if_neg ha] at hm
        rcases List.mem_cons.mp hm with h2 | h2
        · rw [h2] at hrole
          exact absurd hrole ha
        · exact ih pending hp htail m h2 hrole

/-- C10, counterexample: the claim as stated is false — an assistant entry
whose only text block carries the empty string produces an assistant-role
logical message with empty content in the history. -/
theorem C10_counterexample :
    ¬ (∀ lines : List (Option Entry),
        noTwoAdjacentAssistants (historyOfLines lines)
        ∧ ∀ m ∈ historyOfLines lines, m.role = "assistant" → m.content ≠ "") := by
  intro hclaim
  have h2 := (hclaim [some c10Entry]).2 ⟨"assistant", "", none⟩ (by decide) rfl
  exact h2 rfl

/-- C10 (amended): the history never contains two adjacent assistant-role
messages; and every assistant-role message has non-empty content provided
every text-typed block of every non-meta assistant entry in the transcript
carries non-empty text. -/
theorem C10_history_invariants (lines : List (Option Entry)) :
    noTwoAdjacentAssistants (historyOfLines lines)
    ∧ (assistantTextBlocksNonempty (lines.filterMap id) →
        ∀ m ∈ historyOfLines lines, m.role = "assistant" → m.content ≠ "") := by
  constructor
  · exact consolidateAux_noTwoAdjacent _ []
  · intro hblocks
    apply consolidateAux_assistant_nonempty _ [] (by simp)
    intro m hm hrole
    rw [parseEntries, List.mem_flatten] at hm
    obtain ⟨l, hl, hml⟩ := hm
    rw [List.mem_map] at hl
    obtain ⟨e, he, rfl⟩ := hl
    exact parseEntry_assistant_nonempty (hblocks e he) m hml hrole

/-- Witness for C10 at a one-entry transcript with non-empty assistant
text. -/
theorem C10_witness :
    ∀ m ∈ historyOfLines [some c10GoodEntry], m.role = "assistant" → m.content ≠ "" := by
  apply (C10_history_invariants [some c10GoodEntry]).2
  intro e he h1 h2 bs h3 b hb t n i r hbr
  simp only [List.filterMap_cons, id, List.filterMap_nil, List.mem_singleton] at he
  subst he
  simp only [c10GoodEntry] at h3
  cases h3
  simp only [List.mem_singleton] at hb
  subst hb
  cases hbr
  decide
